import Mathlib

/-!
Shallow embedding of the toru task-tree core (src/task.rs and src/tree.rs).

The `Task` and `Tree` structures and the operations `add`, `ascend`,
`descend`, `complete`, `delete`, `nth_child` are translated directly from
the Rust source.  Machine `usize` indices become `Nat` (no arithmetic
overflow is possible here: indices only ever index into the task vector).
`PrimitiveDateTime` is modelled as an abstract timestamp code (`Nat`);
none of the verified properties inspect it.

Rust panics (`unreachable!`, `unwrap` on `None`, out-of-bounds indexing)
abort the program, so a panicking call returns no tree.  They are modelled
as follows: the two loop bodies (`complete`, `delete`) return `Option Tree`
with `none` on a panic branch, and the public wrappers fall back to the
input tree via `Option.getD` (the claims below only ever rely on `some`
results, or on properties that also hold of the unchanged input).  The two
source `while` loops carry no structural termination measure, so they are
embedded with an explicit fuel parameter; fuel exhaustion also yields
`none`, and sufficiency of the chosen fuel is proved where a claim needs
termination.
-/

namespace Toru

/-- Status enum from src/task.rs: a task is either pending or complete. -/
inductive Status where
  | Pending : Status
  | Complete : Status
deriving DecidableEq

/-- Task structure from src/task.rs: parent link, name, optional due
timestamp, status and the ordered list of child indices. -/
structure Task where
  parent : Option Nat
  name : String
  due : Option Nat
  status : Status
  children : List Nat
deriving DecidableEq

namespace Task

/-- Task::new from src/task.rs. -/
def new : Task :=
  { parent := none, name := "Root", due := none, status := .Pending, children := [] }

/-- Task::set_parent from src/task.rs. -/
def set_parent (t : Task) (parent_index : Nat) : Task :=
  { t with parent := some parent_index }

/-- Task::complete from src/task.rs: status becomes Complete. -/
def complete (t : Task) : Task :=
  { t with status := .Complete }

/-- Task::is_complete from src/task.rs. -/
def is_complete (t : Task) : Bool :=
  match t.status with
  | .Complete => true
  | .Pending => false

/-- Task::add_child from src/task.rs: push the index at the end. -/
def add_child (t : Task) (child_index : Nat) : Task :=
  { t with children := t.children ++ [child_index] }

/-- Task::remove_child from src/task.rs: retain all indices different from
the argument. -/
def remove_child (t : Task) (child_index : Nat) : Task :=
  { t with children := t.children.filter (fun index => index != child_index) }

/-- Task::replace_child from src/task.rs: map every occurrence of the old
index to the new one. -/
def replace_child (t : Task) (old_child new_child : Nat) : Task :=
  { t with children := t.children.map (fun index => if index = old_child then new_child else index) }

/-- Task::is_child from src/task.rs (membership test on the children list;
the call site in src/tree.rs spells it has_child_with_index). -/
def is_child (t : Task) (id : Nat) : Bool :=
  t.children.contains id

end Task

/-- ToruError from src/lib.rs (only the variants the core tree code uses
are relevant; all three are kept). -/
inductive ToruError where
  | instantiateError : ToruError
  | invalidIndex : Nat → ToruError
  | parseCommandFailure : ToruError
deriving DecidableEq

/-- Tree structure from src/tree.rs: a cursor index and the task arena. -/
structure Tree where
  ptr : Nat
  tasks : List Task
deriving DecidableEq

namespace Tree

/-- Tree::new from src/tree.rs: cursor 0, arena holding just the root task. -/
def new : Tree :=
  { ptr := 0, tasks := [Task.new] }

/-- Total lookup helper: the task stored at index i.  Rust's `tasks[i]`
panics when i is out of range; every use below is either guarded by a
validity hypothesis or paired with an explicit `get?` check. -/
def taskD (t : Tree) (i : Nat) : Task :=
  t.tasks.getD i Task.new

/-- Tree::current from src/tree.rs (panics in Rust when the cursor is
out of range; modelled totally via `taskD`). -/
def currentTask (t : Tree) : Task :=
  t.taskD t.ptr

/-- Tree::task from src/tree.rs: fallible lookup. -/
def task (t : Tree) (id : Nat) : Option Task :=
  t.tasks.get? id

/-- Tree::replace_task from src/tree.rs. -/
def replace_task (t : Tree) (task_id : Nat) (new_task : Task) : Tree :=
  { t with tasks := t.tasks.set task_id new_task }

/-- Tree::replace_current from src/tree.rs. -/
def replace_current (t : Tree) (new_task : Task) : Tree :=
  { t with tasks := t.tasks.set t.ptr new_task }

/-- Tree::at_root from src/tree.rs. -/
def at_root (t : Tree) : Bool :=
  t.ptr == 0

end Tree

/-- Children iterator from src/tree.rs resolved to the list of child tasks:
`next` returns `tasks.get(idx)`, so the iteration stops early at the first
invalid child index. -/
def childrenTasks (t : Tree) : List Nat → List Task
  | [] => []
  | c :: cs =>
    match t.tasks.get? c with
    | some task => task :: childrenTasks t cs
    | none => []

/-- Tree::children from src/tree.rs: the direct children of the cursor. -/
def childrenOfCursor (t : Tree) : List Task :=
  childrenTasks t t.currentTask.children

/-- Tree::pending_children from src/tree.rs: children of the cursor with
the complete ones filtered out. -/
def pendingChildren (t : Tree) : List Task :=
  (childrenOfCursor t).filter (fun child => !child.is_complete)

/-- Predicate used inside Tree::nth_child's filter.  The Rust closure
panics when the child index is invalid; the `none` arm is unreachable
under the data-model invariants (children indices are valid). -/
def pendingFilter (t : Tree) (c : Nat) : Bool :=
  match t.tasks.get? c with
  | some task => !task.is_complete
  | none => true

/-- Tree::nth_child from src/tree.rs: the idx-th element of the cursor's
children filtered to the non-complete ones, or InvalidIndex(idx). -/
def nth_child (t : Tree) (idx : Nat) : Except ToruError Nat :=
  match (t.currentTask.children.filter (pendingFilter t)).get? idx with
  | some c => .ok c
  | none => .error (.invalidIndex idx)

/-- Function add from src/tree.rs: reparent the task to the cursor, push it
at index = current length, and register that index with the cursor node. -/
def add (tree : Tree) (task : Task) : Tree :=
  let task := task.set_parent tree.ptr
  let index_of_child := tree.tasks.length
  let new_parent := tree.currentTask.add_child index_of_child
  let tree2 : Tree := { tree with tasks := tree.tasks ++ [task] }
  tree2.replace_current new_parent

/-- Function ascend from src/tree.rs: no-op at the root, otherwise move the
cursor to the current node's parent.  The `none` arm is `unreachable!()`
in Rust (a panic); it is modelled as the unchanged tree. -/
def ascend (tree : Tree) : Tree :=
  if tree.ptr = 0 then tree
  else
    match tree.currentTask.parent with
    | some parent => { tree with ptr := parent }
    | none => tree

/-- Function descend from src/tree.rs: move the cursor to idx only when idx
is literally one of the current node's children. -/
def descend (tree : Tree) (idx : Nat) : Tree :=
  if tree.currentTask.is_child idx then { tree with ptr := idx } else tree

/-- Loop body of function complete from src/tree.rs.  The stack grows at
the end and `p` is the read pointer, exactly as in the source.  A `none`
result models either the source's panic on an invalid index or fuel
exhaustion (the source loop has no fuel; sufficiency of the fuel passed by
`complete` is proved below under the data-model invariants). -/
def completeLoop : Nat → Tree → List Nat → Nat → Option Tree
  | 0, _, _, _ => none
  | fuel + 1, tree, stack, p =>
    if h : p < stack.length then
      match tree.tasks.get? (stack.get ⟨p, h⟩) with
      | none => none
      | some task =>
        completeLoop fuel (tree.replace_task (stack.get ⟨p, h⟩) task.complete)
          (stack ++ task.complete.children) (p + 1)
    else some tree

/-- Function complete from src/tree.rs: guarded no-op at the root,
otherwise cascade Complete over the subtree of idx via the work stack. -/
def complete (tree : Tree) (idx : Nat) : Tree :=
  if idx = 0 then tree
  else (completeLoop (tree.tasks.length + 1) tree [idx] 0).getD tree

/-- Vec::swap_remove(i): overwrite slot i with the last element and drop
the last slot.  (Rust panics when i is out of range; the call site in
delete guarantees i is in range.) -/
def swapRemove (l : List Task) (i : Nat) : List Task :=
  (l.set i (l.getD (l.length - 1) Task.new)).take (l.length - 1)

/-- Single detachment step of function delete from src/tree.rs: remove the
leaf from its parent's children list (replace_task), then swap_remove the
leaf's arena slot. -/
def detachTree (tree : Tree) (parent_index child_index : Nat) (parent_task : Task) : Tree :=
  { ptr := tree.ptr,
    tasks := swapRemove (tree.replace_task parent_index
      (parent_task.remove_child child_index)).tasks child_index }

/-- Loop body of function delete from src/tree.rs.  The Rust stack is a
Vec with its top at the end; it is modelled head-first, so pushing the
children of a node prepends `children.reverse`.  The `none` arms mirror
the source's `unreachable!()` / `unwrap` panics and fuel exhaustion.  The
source's `index_to_replace = tree.tasks().len()` (read after the
swap_remove) appears here as the length of the detached tree's task
list. -/
def deleteLoop : Nat → Tree → List Nat → Option Tree
  | 0, _, _ => none
  | _ + 1, tree, [] => some tree
  | fuel + 1, tree, child_index :: rest =>
    match tree.tasks.get? child_index with
    | none => deleteLoop fuel tree rest
    | some child_task =>
      if child_task.children.isEmpty = false then
        deleteLoop fuel tree (child_task.children.reverse ++ child_index :: rest)
      else
        match child_task.parent with
        | none => none
        | some parent_index =>
          match tree.tasks.get? parent_index with
          | none => none
          | some parent_task =>
            match (detachTree tree parent_index child_index parent_task).tasks.get? child_index with
            | none => deleteLoop fuel (detachTree tree parent_index child_index parent_task) rest
            | some moved_task =>
              match moved_task.parent with
              | none => none
              | some parent2 =>
                match (detachTree tree parent_index child_index parent_task).tasks.get? parent2 with
                | none => none
                | some parent_task2 =>
                  deleteLoop fuel
                    ((detachTree tree parent_index child_index parent_task).replace_task parent2
                      (parent_task2.replace_child
                        (detachTree tree parent_index child_index parent_task).tasks.length
                        child_index))
                    rest

/-- Fuel passed to the delete loop; generous enough for every execution
appearing in the theorems below (and always at least 2). -/
def deleteFuel (t : Tree) : Nat :=
  t.tasks.length * t.tasks.length + 2

/-- Function delete from src/tree.rs: guarded no-op at the root, otherwise
remove the subtree of idx bottom-up with swap-remove compaction. -/
def delete (tree : Tree) (idx : Nat) : Tree :=
  if idx = 0 then tree
  else (deleteLoop (deleteFuel tree) tree [idx]).getD tree

/-!
Data-model invariants of spec section 3, as decidable checkers.

Item 2 of the spec (the back-reference invariant) is stated exactly as in
the spec: conditional on the parent link being present, plus the converse
direction.  The spec additionally says a parent link is absent only for
the root, and the data model is a tree (tasks nest under tasks, every node
hanging below the root), so the full invariant also requires every
non-root node to carry a parent link and every parent chain to reach the
root within `length` steps (this is what rules out parent cycles, which
the flat representation could otherwise encode).
-/

/-- Forward half of the back-reference invariant (spec section 3, item 2):
for every index i > 0 whose parent link is Some p, p is a valid index and
i occurs exactly once in p's children. -/
def backRefForward (t : Tree) : Bool :=
  (List.range t.tasks.length).all fun i =>
    i == 0 ||
      match (t.taskD i).parent with
      | some p => decide (p < t.tasks.length) && ((t.taskD p).children.count i == 1)
      | none => true

/-- Converse half (spec section 3, items 2 and 3): every entry of every
children list is a valid index whose parent link points back at the
owner. -/
def backRefConverse (t : Tree) : Bool :=
  (List.range t.tasks.length).all fun p =>
    (t.taskD p).children.all fun c =>
      decide (c < t.tasks.length) && ((t.taskD c).parent == some p)

/-- Back-reference invariant as claimed in the spec: both directions. -/
def BackRefOK (t : Tree) : Prop :=
  backRefForward t = true ∧ backRefConverse t = true

/-- Does the parent chain starting at i reach the root within the given
number of steps? -/
def parentChainHits0 (t : Tree) : Nat → Nat → Bool
  | 0, i => i == 0
  | fuel + 1, i =>
    i == 0 ||
      match (t.taskD i).parent with
      | some p => parentChainHits0 t fuel p
      | none => false

/-- Every non-root node carries a parent link (spec section 3: parent is
None only for the root). -/
def parentsPresent (t : Tree) : Bool :=
  (List.range t.tasks.length).all fun i => i == 0 || (t.taskD i).parent.isSome

/-- Every node's parent chain reaches the root within `length` steps. -/
def rootedCheck (t : Tree) : Bool :=
  (List.range t.tasks.length).all fun i => parentChainHits0 t t.tasks.length i

/-- Full data-model invariant of spec section 3: the arena is non-empty,
the root has no parent, the cursor is valid, back references are mutually
consistent, non-root parents are present, and the structure is rooted
(hence acyclic). -/
def Inv (t : Tree) : Prop :=
  0 < t.tasks.length ∧ (t.taskD 0).parent = none ∧ t.ptr < t.tasks.length ∧
    BackRefOK t ∧ parentsPresent t = true ∧ rootedCheck t = true

instance (t : Tree) : Decidable (BackRefOK t) := by
  unfold BackRefOK
  infer_instance

instance (t : Tree) : Decidable (Inv t) := by
  unfold Inv
  infer_instance

/-- Structural descendant relation read off the children lists: j is idx
itself or reachable from idx by repeatedly stepping into a children
list. -/
inductive Desc (t : Tree) (idx : Nat) : Nat → Prop
  | refl : Desc t idx idx
  | child {p c : Nat} : Desc t idx p → c ∈ (t.taskD p).children → Desc t idx c

/-- Length of the parent chain from i to the root, if it closes within the
given fuel. -/
def chainDepth (t : Tree) : Nat → Nat → Option Nat
  | 0, i => if i = 0 then some 0 else none
  | fuel + 1, i =>
    if i = 0 then some 0
    else
      match (t.taskD i).parent with
      | some p => (chainDepth t fuel p).map Nat.succ
      | none => none

/-- Depth of node i under the invariant (0 when the chain does not close,
which the invariant excludes for valid indices). -/
def depth (t : Tree) (i : Nat) : Nat :=
  (chainDepth t t.tasks.length i).getD 0

/-- Invariant carried through the complete-cascade loop, relative to the
initial tree t and start index idx: the arena length is fixed; the read
pointer never passes the stack; the stack never repeats an index; every
stack entry is a valid descendant of idx; the children of every processed
entry have been pushed; every entry beyond position 0 was pushed as a
child of an already-processed entry; the stack starts at idx; processed
slots are the completed originals and all other slots are untouched. -/
def LoopInv (t : Tree) (idx : Nat) (tree : Tree) (stack : List Nat) (p : Nat) : Prop :=
  tree.tasks.length = t.tasks.length ∧
  p ≤ stack.length ∧
  stack.Nodup ∧
  (∀ e ∈ stack, e < t.tasks.length ∧ Desc t idx e) ∧
  (∀ k, (hk : k < stack.length) → k < p →
    (t.taskD (stack.get ⟨k, hk⟩)).children ⊆ stack) ∧
  (∀ k, (hk : k < stack.length) → 0 < k → ∃ j, ∃ hj : j < stack.length, j < p ∧
    stack.get ⟨k, hk⟩ ∈ (t.taskD (stack.get ⟨j, hj⟩)).children) ∧
  stack.get? 0 = some idx ∧
  (∀ j, j ∈ stack.take p → tree.taskD j = (t.taskD j).complete) ∧
  (∀ j, j ∉ stack.take p → tree.taskD j = t.taskD j)

/-- Number of non-complete direct children of the cursor node, counted
straight off the children list (the spec's "current pending-children
count"). -/
def pendingChildCount (t : Tree) : Nat :=
  t.currentTask.children.countP (fun c => !(t.taskD c).is_complete)

/-- Trees reachable from Tree::new by the public mutation operations.  The
add step receives an arbitrary fresh task record with an empty children
list: every add call site in the repository builds its argument from
Task::new (whose children list is empty) followed by field setters that do
not touch the children. -/
inductive Reachable : Tree → Prop
  | new : Reachable Tree.new
  | add {t : Tree} (p : Option Nat) (nm : String) (d : Option Nat) (s : Status) :
      Reachable t → Reachable (add t ⟨p, nm, d, s, []⟩)
  | ascend {t : Tree} : Reachable t → Reachable (ascend t)
  | descend {t : Tree} (idx : Nat) : Reachable t → Reachable (descend t idx)
  | complete {t : Tree} (idx : Nat) : Reachable t → Reachable (complete t idx)
  | delete {t : Tree} (idx : Nat) : Reachable t → Reachable (delete t idx)

/-- Root-safety invariant: the arena is non-empty, the root slot carries
no parent link, and no children list anywhere mentions index 0 (so the
cascade loops never push the root onto their work stacks). -/
def RootOK (t : Tree) : Prop :=
  0 < t.tasks.length ∧ (t.taskD 0).parent = none ∧ ∀ u ∈ t.tasks, (0 : Nat) ∉ u.children

/-- Field agreement up to the children list: delete edits only children
lists, so every survivor of a delete matches its pre-call version on
parent, name, due and status. -/
def coreMatch (a b : Task) : Prop :=
  a.parent = b.parent ∧ a.name = b.name ∧ a.due = b.due ∧ a.status = b.status

/-- Concrete tree on which delete loses referential integrity.  It is
reachable from Tree::new (see the corresponding theorem): three children
are added under the root, the cursor descends to the third, a grandchild
is added, child 2 is deleted (which swap-relocates the grandchild to
slot 2 and its parent to slot 3), and the cursor ascends back.  Node 3
(a child of the root) now holds node 2 as its child while node 1 is a
childless sibling of node 3. -/
def bugTree : Tree :=
  { ptr := 0,
    tasks :=
      [ { parent := none, name := "Root", due := none, status := .Pending, children := [1, 3] },
        { parent := some 0, name := "Root", due := none, status := .Pending, children := [] },
        { parent := some 3, name := "Root", due := none, status := .Pending, children := [] },
        { parent := some 0, name := "Root", due := none, status := .Pending, children := [2] } ] }

/-- Small sample tree used by witnesses: root with two children, the
second of which is complete, plus a grandchild under the first child. -/
def sampleTree : Tree :=
  { ptr := 0,
    tasks :=
      [ { parent := none, name := "Root", due := none, status := .Pending, children := [1, 2] },
        { parent := some 0, name := "a", due := none, status := .Pending, children := [3] },
        { parent := some 0, name := "b", due := none, status := .Complete, children := [] },
        { parent := some 1, name := "c", due := none, status := .Pending, children := [] } ] }

/-!  Small facts about the Task operations. -/

theorem Task.complete_children (x : Task) : x.complete.children = x.children := rfl

theorem Task.complete_parent (x : Task) : x.complete.parent = x.parent := rfl

theorem Task.complete_complete (x : Task) : x.complete.complete = x.complete := rfl

theorem Task.is_complete_complete (x : Task) : x.complete.is_complete = true := rfl

theorem Task.set_parent_status (x : Task) (p : Nat) : (x.set_parent p).status = x.status := rfl

/-!  Indexing helpers. -/

theorem Tree.taskD_eq_get? (t : Tree) (i : Nat) :
    t.taskD i = (t.tasks.get? i).getD Task.new := by
  simp [Tree.taskD, List.getD_eq_getD_get?]

theorem Tree.get?_eq_some_taskD {t : Tree} {i : Nat} (h : i < t.tasks.length) :
    t.tasks.get? i = some (t.taskD i) := by
  rw [Tree.taskD_eq_get?]
  rcases List.get?_eq_get h with h'
  rw [h']
  rfl

theorem Tree.replace_task_ptr (t : Tree) (i : Nat) (v : Task) :
    (t.replace_task i v).ptr = t.ptr := rfl

theorem Tree.replace_task_length (t : Tree) (i : Nat) (v : Task) :
    (t.replace_task i v).tasks.length = t.tasks.length := by
  simp [Tree.replace_task]

theorem Tree.taskD_replace_task_ne (t : Tree) {i j : Nat} (v : Task) (h : i ≠ j) :
    (t.replace_task i v).taskD j = t.taskD j := by
  rw [Tree.taskD_eq_get?, Tree.taskD_eq_get?]
  simp [Tree.replace_task, List.getElem?_set_ne h]

theorem Tree.taskD_replace_task_self (t : Tree) {i : Nat} (v : Task) (h : i < t.tasks.length) :
    (t.replace_task i v).taskD i = v := by
  rw [Tree.taskD_eq_get?]
  simp [Tree.replace_task, List.getElem?_set_self h]

/-!  Unpacking the invariant checkers into usable propositions. -/

theorem backRefForward_spec {t : Tree} (h : backRefForward t = true) {i p : Nat}
    (hi : i < t.tasks.length) (hi0 : i ≠ 0) (hp : (t.taskD i).parent = some p) :
    p < t.tasks.length ∧ (t.taskD p).children.count i = 1 := by
  have h' := List.all_eq_true.mp h i (List.mem_range.mpr hi)
  rw [hp] at h'
  simp only [Bool.or_eq_true, beq_iff_eq, Bool.and_eq_true, decide_eq_true_eq] at h'
  rcases h' with h' | h'
  · exact absurd h' hi0
  · exact ⟨h'.1, h'.2⟩

theorem backRefConverse_spec {t : Tree} (h : backRefConverse t = true) {p c : Nat}
    (hp : p < t.tasks.length) (hc : c ∈ (t.taskD p).children) :
    c < t.tasks.length ∧ (t.taskD c).parent = some p := by
  have h' := List.all_eq_true.mp h p (List.mem_range.mpr hp)
  have h'' := List.all_eq_true.mp h' c hc
  simp only [Bool.and_eq_true, decide_eq_true_eq, beq_iff_eq] at h''
  exact h''

theorem parentsPresent_spec {t : Tree} (h : parentsPresent t = true) {i : Nat}
    (hi : i < t.tasks.length) (hi0 : i ≠ 0) : ∃ p, (t.taskD i).parent = some p := by
  have h' := List.all_eq_true.mp h i (List.mem_range.mpr hi)
  simp only [Bool.or_eq_true, beq_iff_eq, Option.isSome_iff_exists] at h'
  rcases h' with h' | h'
  · exact absurd h' hi0
  · exact h'

/-- Under the invariant a node is never listed among its own children, and
parents are unique: membership in a children list determines the parent
link. -/
theorem parent_unique {t : Tree} (hb : backRefConverse t = true) {p q c : Nat}
    (hp : p < t.tasks.length) (hq : q < t.tasks.length)
    (hcp : c ∈ (t.taskD p).children) (hcq : c ∈ (t.taskD q).children) : p = q := by
  have h1 := (backRefConverse_spec hb hp hcp).2
  have h2 := (backRefConverse_spec hb hq hcq).2
  rw [h1] at h2
  exact Option.some.inj h2

/-- Under the invariant the root never appears in a children list. -/
theorem zero_not_child {t : Tree} (hroot : (t.taskD 0).parent = none)
    (hb : backRefConverse t = true) {p : Nat} (hp : p < t.tasks.length)
    (hc : (0 : Nat) ∈ (t.taskD p).children) : False := by
  have := (backRefConverse_spec hb hp hc).2
  rw [hroot] at this
  cases this

/-- Under the invariant every children list is duplicate-free. -/
theorem children_nodup {t : Tree} (hroot : (t.taskD 0).parent = none)
    (hf : backRefForward t = true) (hb : backRefConverse t = true) {p : Nat}
    (hp : p < t.tasks.length) : (t.taskD p).children.Nodup := by
  rw [List.nodup_iff_count_le_one]
  intro c
  by_cases hc : c ∈ (t.taskD p).children
  · obtain ⟨hclt, hcparent⟩ := backRefConverse_spec hb hp hc
    have hc0 : c ≠ 0 := by
      intro h0
      rw [h0] at hc
      exact zero_not_child hroot hb hp hc
    have hcount := (backRefForward_spec hf hclt hc0 hcparent).2
    omega
  · simp [List.count_eq_zero_of_not_mem hc]

/-!  Depth of a node: the length of its parent chain down to the root.
Used to rule out cycles when reasoning about the cascade loops. -/

theorem chainDepth_succ_parent {t : Tree} {n i p : Nat} (hi : i ≠ 0)
    (hp : (t.taskD i).parent = some p) :
    chainDepth t (n + 1) i = (chainDepth t n p).map Nat.succ := by
  simp [chainDepth, hi, hp]

theorem chainDepth_succ_noparent {t : Tree} {n i : Nat} (hi : i ≠ 0)
    (hp : (t.taskD i).parent = none) :
    chainDepth t (n + 1) i = none := by
  simp [chainDepth, hi, hp]

theorem chainDepth_mono {t : Tree} :
    ∀ {fuel fuel' i d}, chainDepth t fuel i = some d → fuel ≤ fuel' →
      chainDepth t fuel' i = some d := by
  intro fuel
  induction fuel with
  | zero =>
    intro fuel' i d h _
    by_cases hi : i = 0
    · subst hi
      simp [chainDepth] at h
      cases fuel' <;> simp [chainDepth, ← h]
    · simp [chainDepth, hi] at h
  | succ n ih =>
    intro fuel' i d h hle
    obtain ⟨m, rfl⟩ : ∃ m, fuel' = m + 1 := ⟨fuel' - 1, by omega⟩
    by_cases hi : i = 0
    · subst hi
      simp [chainDepth] at h ⊢
      exact h
    · cases hp : (t.taskD i).parent with
      | none => rw [chainDepth_succ_noparent hi hp] at h; cases h
      | some p =>
        rw [chainDepth_succ_parent hi hp] at h ⊢
        cases hc : chainDepth t n p with
        | none => rw [hc] at h; cases h
        | some d' =>
          rw [hc] at h
          rw [ih hc (by omega)]
          exact h

theorem parentChainHits0_chainDepth {t : Tree} :
    ∀ {fuel i}, parentChainHits0 t fuel i = true → ∃ d, chainDepth t fuel i = some d := by
  intro fuel
  induction fuel with
  | zero =>
    intro i h
    simp [parentChainHits0] at h
    subst h
    exact ⟨0, rfl⟩
  | succ n ih =>
    intro i h
    by_cases hi : i = 0
    · subst hi
      exact ⟨0, by simp [chainDepth]⟩
    · simp only [parentChainHits0, Bool.or_eq_true, beq_iff_eq] at h
      rcases h with h | h
      · exact absurd h hi
      · cases hp : (t.taskD i).parent with
        | none => rw [hp] at h; cases h
        | some p =>
          rw [hp] at h
          obtain ⟨d, hd⟩ := ih h
          exact ⟨d + 1, by simp [chainDepth, hi, hp, hd]⟩

theorem depth_defined {t : Tree} (hr : rootedCheck t = true) {i : Nat}
    (hi : i < t.tasks.length) : chainDepth t t.tasks.length i = some (depth t i) := by
  have h := List.all_eq_true.mp hr i (List.mem_range.mpr hi)
  obtain ⟨d, hd⟩ := parentChainHits0_chainDepth h
  simp [depth, hd]

/-- A child sits one level below its parent. -/
theorem depth_child {t : Tree} (hroot : (t.taskD 0).parent = none)
    (hb : backRefConverse t = true) (hr : rootedCheck t = true) {p c : Nat}
    (hp : p < t.tasks.length) (hc : c ∈ (t.taskD p).children) :
    depth t c = depth t p + 1 := by
  obtain ⟨hclt, hcparent⟩ := backRefConverse_spec hb hp hc
  have hc0 : c ≠ 0 := by
    intro h0
    rw [h0] at hc
    exact zero_not_child hroot hb hp hc
  have hdc := depth_defined hr hclt
  have hn : ∃ n, t.tasks.length = n + 1 := ⟨t.tasks.length - 1, by omega⟩
  obtain ⟨n, hn⟩ := hn
  rw [hn] at hdc
  rw [chainDepth_succ_parent hc0 hcparent] at hdc
  cases hcd : chainDepth t n p with
  | none => rw [hcd] at hdc; cases hdc
  | some d =>
    rw [hcd] at hdc
    have hdp : chainDepth t t.tasks.length p = some d :=
      chainDepth_mono hcd (by omega)
    have := depth_defined hr hp
    rw [this] at hdp
    have h1 : depth t c = d + 1 := by
      have h3 : Nat.succ d = depth t c := Option.some.inj hdc
      omega
    have h2 : depth t p = d := Option.some.inj hdp
    omega

/-- No node is its own child (a special case of acyclicity used by add). -/
theorem no_self_child {t : Tree} (hroot : (t.taskD 0).parent = none)
    (hb : backRefConverse t = true) (hr : rootedCheck t = true) {p : Nat}
    (hp : p < t.tasks.length) (hc : p ∈ (t.taskD p).children) : False := by
  have := depth_child hroot hb hr hp hc
  omega

/-- Every structural descendant of a valid node is valid and sits at least
as deep. -/
theorem Desc_valid_depth {t : Tree} (hroot : (t.taskD 0).parent = none)
    (hb : backRefConverse t = true) (hr : rootedCheck t = true) {idx j : Nat}
    (hidx : idx < t.tasks.length) (h : Desc t idx j) :
    j < t.tasks.length ∧ depth t idx ≤ depth t j := by
  induction h with
  | refl => exact ⟨hidx, le_refl _⟩
  | child hd hc ih =>
    obtain ⟨hplt, hdep⟩ := ih
    obtain ⟨hclt, _⟩ := backRefConverse_spec hb hplt hc
    have := depth_child hroot hb hr hplt hc
    exact ⟨hclt, by omega⟩

/-!  Shared facts about add. -/

theorem add_ptr (t : Tree) (task : Task) : (add t task).ptr = t.ptr := rfl

theorem add_tasks (t : Tree) (task : Task) :
    (add t task).tasks =
      (t.tasks ++ [task.set_parent t.ptr]).set t.ptr
        (t.currentTask.add_child t.tasks.length) := rfl

theorem add_length (t : Tree) (task : Task) :
    (add t task).tasks.length = t.tasks.length + 1 := by
  simp [add, Tree.replace_current]

theorem taskD_add_new (t : Tree) (task : Task) (h : t.ptr < t.tasks.length) :
    (add t task).taskD t.tasks.length = task.set_parent t.ptr := by
  rw [Tree.taskD_eq_get?, add_tasks]
  rw [List.get?_set_ne _ _ (Nat.ne_of_lt h), List.get?_concat_length]
  rfl

theorem taskD_add_cursor (t : Tree) (task : Task) (h : t.ptr < t.tasks.length) :
    (add t task).taskD t.ptr = t.currentTask.add_child t.tasks.length := by
  rw [Tree.taskD_eq_get?, add_tasks]
  rw [List.get?_eq_getElem?, List.getElem?_set_self (by simp; omega)]
  rfl

theorem taskD_add_old (t : Tree) (task : Task) {c : Nat} (hne : c ≠ t.ptr)
    (hlt : c < t.tasks.length) : (add t task).taskD c = t.taskD c := by
  rw [Tree.taskD_eq_get?, Tree.taskD_eq_get?, add_tasks]
  rw [List.get?_set_ne _ _ (Ne.symm hne), List.get?_append hlt]

/-!  Claim C5: behaviour of add. -/

/-- C5: add reparents the task to the pre-call cursor, stores it at index
equal to the pre-call node count, appends that index to the cursor node's
children list, grows the node count by exactly one, and leaves the cursor
unchanged.  (The cursor must be valid, as spec section 3 invariant 4
guarantees; on an invalid cursor the Rust code panics in current().) -/
theorem add_spec (t : Tree) (task : Task) (h : t.ptr < t.tasks.length) :
    (add t task).tasks.length = t.tasks.length + 1 ∧
    (add t task).ptr = t.ptr ∧
    (add t task).taskD t.tasks.length = task.set_parent t.ptr ∧
    ((add t task).taskD t.tasks.length).parent = some t.ptr ∧
    ((add t task).taskD t.ptr).children = t.currentTask.children ++ [t.tasks.length] := by
  refine ⟨add_length t task, rfl, taskD_add_new t task h, ?_, ?_⟩
  · rw [taskD_add_new t task h]; rfl
  · rw [taskD_add_cursor t task h]; rfl

/-- Witness for add_spec at a concrete tree. -/
theorem add_spec_witness :
    sampleTree.ptr < sampleTree.tasks.length ∧
    ((add sampleTree Task.new).tasks.length = sampleTree.tasks.length + 1 ∧
      (add sampleTree Task.new).ptr = sampleTree.ptr ∧
      (add sampleTree Task.new).taskD sampleTree.tasks.length = Task.new.set_parent sampleTree.ptr ∧
      ((add sampleTree Task.new).taskD sampleTree.tasks.length).parent = some sampleTree.ptr ∧
      ((add sampleTree Task.new).taskD sampleTree.ptr).children =
        sampleTree.currentTask.children ++ [sampleTree.tasks.length]) :=
  ⟨by decide, add_spec sampleTree Task.new (by decide)⟩

/-!  Claim C10: delete absorbs an out-of-range index. -/

/-- C10: for any non-root index outside the node sequence, the delete loop
finds no task at the index, pops the work stack, and exits normally (the
some result shows no panic branch and no fuel exhaustion was hit), leaving
the tree completely unchanged. -/
theorem delete_out_of_range (t : Tree) (idx : Nat) (hge : t.tasks.length ≤ idx)
    (h0 : idx ≠ 0) :
    deleteLoop (deleteFuel t) t [idx] = some t ∧ delete t idx = t := by
  have hnone : t.tasks.get? idx = none := List.get?_eq_none.mpr hge
  have hstep : deleteLoop (deleteFuel t) t [idx] = some t := by
    show deleteLoop (t.tasks.length * t.tasks.length + 2) t [idx] = some t
    rw [show t.tasks.length * t.tasks.length + 2 =
      (t.tasks.length * t.tasks.length + 1) + 1 from rfl]
    simp only [deleteLoop, Tree.task, hnone]
  refine ⟨hstep, ?_⟩
  simp [delete, h0, hstep]

/-- Witness for delete_out_of_range at a concrete tree and index. -/
theorem delete_out_of_range_witness :
    sampleTree.tasks.length ≤ 9 ∧ (9 : Nat) ≠ 0 ∧
    (deleteLoop (deleteFuel sampleTree) sampleTree [9] = some sampleTree ∧
      delete sampleTree 9 = sampleTree) :=
  ⟨by decide, by decide, delete_out_of_range sampleTree 9 (by decide) (by decide)⟩

/-!  Claim C8: descend and ascend. -/

/-- C8: descend moves the cursor to idx exactly when idx literally occurs
in the current node's children list and otherwise returns the tree
unchanged; ascend is a no-op at the root and otherwise moves the cursor to
the current node's parent; consequently ascend undoes descend for any idx
in the cursor's children. -/
theorem descend_ascend_spec (t : Tree) (idx : Nat) (hInv : Inv t) :
    (idx ∈ t.currentTask.children →
      descend t idx = { t with ptr := idx } ∧ ascend (descend t idx) = t) ∧
    (idx ∉ t.currentTask.children → descend t idx = t) ∧
    (t.ptr = 0 → ascend t = t) ∧
    (t.ptr ≠ 0 → ∃ p, t.currentTask.parent = some p ∧ ascend t = { t with ptr := p }) := by
  obtain ⟨hne, hroot, hptr, ⟨hf, hb⟩, hpp, hr⟩ := hInv
  refine ⟨?_, ?_, ?_, ?_⟩
  · intro hmem
    have hchild : t.currentTask.is_child idx = true := by
      simp [Task.is_child, List.elem_iff]
      exact hmem
    have hdesc : descend t idx = { t with ptr := idx } := by
      simp [descend, hchild]
    refine ⟨hdesc, ?_⟩
    obtain ⟨hidxlt, hidxparent⟩ := backRefConverse_spec hb hptr hmem
    have hidx0 : idx ≠ 0 := by
      intro h0
      rw [h0] at hmem
      exact zero_not_child hroot hb hptr hmem
    rw [hdesc]
    have hcur : Tree.currentTask { t with ptr := idx } = t.taskD idx := rfl
    simp only [ascend, hidx0, if_false, hcur, hidxparent]
  · intro hmem
    have hchild : t.currentTask.is_child idx = false := by
      simp [Task.is_child]
      intro hc
      exact absurd (List.elem_iff.mp (by simpa using hc)) hmem
    simp [descend, hchild]
  · intro h0
    simp [ascend, h0]
  · intro h0
    obtain ⟨p, hp⟩ := parentsPresent_spec hpp hptr h0
    refine ⟨p, hp, ?_⟩
    have hcur : t.currentTask.parent = some p := hp
    simp [ascend, h0, hcur]

/-- Witness for descend_ascend_spec at a concrete tree and index. -/
theorem descend_ascend_spec_witness :
    Inv sampleTree ∧
    ((1 ∈ sampleTree.currentTask.children →
        descend sampleTree 1 = { sampleTree with ptr := 1 } ∧
          ascend (descend sampleTree 1) = sampleTree) ∧
      (1 ∉ sampleTree.currentTask.children → descend sampleTree 1 = sampleTree) ∧
      (sampleTree.ptr = 0 → ascend sampleTree = sampleTree) ∧
      (sampleTree.ptr ≠ 0 → ∃ p, sampleTree.currentTask.parent = some p ∧
        ascend sampleTree = { sampleTree with ptr := p })) :=
  ⟨by decide, descend_ascend_spec sampleTree 1 (by decide)⟩

/-!  Claims C4 and C7: the pending-child resolver. -/

theorem childrenTasks_all_valid (u : Tree) :
    ∀ l : List Nat, (∀ c ∈ l, c < u.tasks.length) → childrenTasks u l = l.map u.taskD := by
  intro l
  induction l with
  | nil => intro _; rfl
  | cons c cs ih =>
    intro h
    have hc : c < u.tasks.length := h c (List.mem_cons_self c cs)
    rw [List.map_cons, childrenTasks, Tree.get?_eq_some_taskD hc]
    simp only
    rw [ih (fun x hx => h x (List.mem_cons_of_mem c hx))]

theorem pendingFilter_eq_of_valid {u : Tree} {c : Nat} (hc : c < u.tasks.length) :
    pendingFilter u c = !(u.taskD c).is_complete := by
  rw [pendingFilter, Tree.get?_eq_some_taskD hc]

theorem nth_child_eq_ok {t : Tree} {k c : Nat}
    (h : (t.currentTask.children.filter (pendingFilter t)).get? k = some c) :
    nth_child t k = .ok c := by
  rw [nth_child, h]

theorem nth_child_eq_error {t : Tree} {k : Nat}
    (h : (t.currentTask.children.filter (pendingFilter t)).get? k = none) :
    nth_child t k = .error (.invalidIndex k) := by
  rw [nth_child, h]

/-- C4: nth_child returns Err(InvalidIndex(k)) exactly when k is at least
the number of non-complete direct children of the cursor node; otherwise
it returns Ok of the arena index of the k-th pending child, counting the
children in insertion order with complete children consuming no
position. -/
theorem nth_child_spec (t : Tree) (k : Nat) (hInv : Inv t) :
    (nth_child t k = .error (.invalidIndex k) ↔ pendingChildCount t ≤ k) ∧
    (∀ j, nth_child t k = .ok j ↔
      (t.currentTask.children.filter (fun c => !(t.taskD c).is_complete)).get? k = some j) := by
  obtain ⟨hne, hroot, hptr, ⟨hf, hb⟩, hpp, hr⟩ := hInv
  have hfe : t.currentTask.children.filter (pendingFilter t)
      = t.currentTask.children.filter (fun c => !(t.taskD c).is_complete) := by
    apply List.filter_congr
    intro c hc
    exact pendingFilter_eq_of_valid (backRefConverse_spec hb hptr hc).1
  have hcount : pendingChildCount t
      = (t.currentTask.children.filter (fun c => !(t.taskD c).is_complete)).length := by
    rw [pendingChildCount, List.countP_eq_length_filter]
  constructor
  · constructor
    · intro herr
      cases hget : (t.currentTask.children.filter (pendingFilter t)).get? k with
      | none =>
        rw [hfe] at hget
        rw [hcount]
        exact List.get?_eq_none.mp hget
      | some c =>
        rw [nth_child_eq_ok hget] at herr
        cases herr
    · intro hk
      apply nth_child_eq_error
      rw [hfe]
      apply List.get?_eq_none.mpr
      rw [← hcount]
      exact hk
  · intro j
    constructor
    · intro hok
      cases hget : (t.currentTask.children.filter (pendingFilter t)).get? k with
      | none =>
        rw [nth_child_eq_error hget] at hok
        cases hok
      | some c =>
        rw [nth_child_eq_ok hget] at hok
        cases hok
        rw [← hfe]
        exact hget
    · intro hget'
      apply nth_child_eq_ok
      rw [hfe]
      exact hget'

/-- Witness for nth_child_spec at a concrete tree and position. -/
theorem nth_child_spec_witness :
    Inv sampleTree ∧
    ((nth_child sampleTree 1 = .error (.invalidIndex 1) ↔ pendingChildCount sampleTree ≤ 1) ∧
      (∀ j, nth_child sampleTree 1 = .ok j ↔
        (sampleTree.currentTask.children.filter
          (fun c => !(sampleTree.taskD c).is_complete)).get? 1 = some j)) :=
  ⟨by decide, nth_child_spec sampleTree 1 (by decide)⟩

/-- C7: adding a pending task T from a cursor with n pending direct
children makes the cursor's pending_children list T's stored copy at
position n and makes nth_child(n) resolve to T's assigned arena index,
the pre-call node count. -/
theorem add_resolve_law (t : Tree) (task : Task) (hInv : Inv t)
    (hpend : task.is_complete = false) :
    (pendingChildren (add t task)).get? (pendingChildren t).length
        = some (task.set_parent t.ptr) ∧
    nth_child (add t task) (pendingChildren t).length = .ok t.tasks.length := by
  obtain ⟨hne, hroot, hptr, ⟨hf, hb⟩, hpp, hr⟩ := hInv
  have hvalid : ∀ c ∈ t.currentTask.children, c < t.tasks.length :=
    fun c hc => (backRefConverse_spec hb hptr hc).1
  have hnoself : ∀ c ∈ t.currentTask.children, c ≠ t.ptr := by
    intro c hc hceq
    rw [hceq] at hc
    exact no_self_child hroot hb hr hptr hc
  have hold : ∀ c ∈ t.currentTask.children, (add t task).taskD c = t.taskD c :=
    fun c hc => taskD_add_old t task (hnoself c hc) (hvalid c hc)
  have hcur' : (add t task).currentTask = t.currentTask.add_child t.tasks.length := by
    rw [Tree.currentTask, add_ptr, taskD_add_cursor t task hptr]
  have hch : (add t task).currentTask.children
      = t.currentTask.children ++ [t.tasks.length] := by
    rw [hcur']; rfl
  have hvalid' : ∀ c ∈ t.currentTask.children, c < (add t task).tasks.length := by
    intro c hc
    rw [add_length]
    exact Nat.lt_succ_of_lt (hvalid c hc)
  have hnewlt : t.tasks.length < (add t task).tasks.length := by
    rw [add_length]; omega
  -- the pending task list of the new cursor splits as old pending ++ [T]
  have hmap_agree : t.currentTask.children.map (add t task).taskD
      = t.currentTask.children.map t.taskD := List.map_congr_left hold
  have hCT : childrenTasks (add t task) ((add t task).currentTask.children)
      = t.currentTask.children.map t.taskD ++ [task.set_parent t.ptr] := by
    rw [hch, childrenTasks_all_valid (add t task) _ (by
      intro c hc
      rcases List.mem_append.mp hc with h | h
      · exact hvalid' c h
      · rw [List.mem_singleton.mp h]; exact hnewlt)]
    rw [List.map_append, hmap_agree]
    simp [taskD_add_new t task hptr]
  have hCTt : childrenTasks t t.currentTask.children = t.currentTask.children.map t.taskD :=
    childrenTasks_all_valid t _ hvalid
  have hpend' : (task.set_parent t.ptr).is_complete = false := hpend
  have hsplit : pendingChildren (add t task)
      = pendingChildren t ++ [task.set_parent t.ptr] := by
    rw [pendingChildren, childrenOfCursor, hCT, pendingChildren, childrenOfCursor, hCTt]
    rw [List.filter_append]
    simp [hpend']
  constructor
  · rw [hsplit, List.get?_concat_length]
  · -- resolve the new position through the index-level filter
    have hpf : ∀ c ∈ t.currentTask.children,
        pendingFilter (add t task) c = (fun c => !(t.taskD c).is_complete) c := by
      intro c hc
      rw [pendingFilter_eq_of_valid (hvalid' c hc), hold c hc]
    have hfilter : (add t task).currentTask.children.filter (pendingFilter (add t task))
        = t.currentTask.children.filter (fun c => !(t.taskD c).is_complete)
            ++ [t.tasks.length] := by
      rw [hch, List.filter_append, List.filter_congr hpf]
      have : pendingFilter (add t task) t.tasks.length = true := by
        rw [pendingFilter_eq_of_valid hnewlt, taskD_add_new t task hptr]
        simp [hpend']
      simp [this]
    have hlength : (pendingChildren t).length
        = (t.currentTask.children.filter (fun c => !(t.taskD c).is_complete)).length := by
      rw [pendingChildren, childrenOfCursor, hCTt, List.filter_map, List.length_map]
      rfl
    rw [hlength]
    apply nth_child_eq_ok
    rw [hfilter, ← hlength, hlength, List.get?_concat_length]

/-- Witness for add_resolve_law at a concrete tree and task. -/
theorem add_resolve_law_witness :
    Inv sampleTree ∧ Task.new.is_complete = false ∧
    ((pendingChildren (add sampleTree Task.new)).get? (pendingChildren sampleTree).length
        = some (Task.new.set_parent sampleTree.ptr) ∧
      nth_child (add sampleTree Task.new) (pendingChildren sampleTree).length
        = .ok sampleTree.tasks.length) :=
  ⟨by decide, by decide, add_resolve_law sampleTree Task.new (by decide) (by decide)⟩

/-!  Claims C1 and C2: the delete compaction bug. -/

/-- C2 (code bug at delete): bugTree is reachable from Tree::new by public
operations and satisfies the back-reference invariant, yet delete(bugTree,
1) breaks it: the swap-remove relocates node 3 into slot 1 and patches the
root's children list, but node 2's parent link still names the vacated
slot 3, which is now out of range. -/
theorem delete_breaks_backrefs :
    Reachable bugTree ∧ BackRefOK bugTree ∧ ¬ BackRefOK (delete bugTree 1) := by
  refine ⟨?_, by decide, by decide⟩
  have h1 : Reachable (ascend (delete (add (descend
      (add (add (add Tree.new Task.new) Task.new) Task.new) 3) Task.new) 2)) :=
    Reachable.ascend (Reachable.delete 2 (Reachable.add none "Root" none .Pending
      (Reachable.descend 3 (Reachable.add none "Root" none .Pending
        (Reachable.add none "Root" none .Pending
          (Reachable.add none "Root" none .Pending Reachable.new))))))
  have h2 : ascend (delete (add (descend
      (add (add (add Tree.new Task.new) Task.new) Task.new) 3) Task.new) 2) = bugTree := by
    decide
  exact h2 ▸ h1

/-- C1 (code bug at delete): on the invariant-satisfying bugTree,
delete(bugTree, 1) does remove exactly the one requested leaf (the node
count drops by one), but the surviving node in slot 2 is left with parent
link 3, an index outside the shrunken arena: the spec's requirement that
every surviving node's parent/children references stay mutually consistent
fails. -/
theorem delete_leaves_dangling_parent :
    Inv bugTree ∧
    (delete bugTree 1).tasks.length = bugTree.tasks.length - 1 ∧
    ((delete bugTree 1).taskD 2).parent = some 3 ∧
    (delete bugTree 1).tasks.length ≤ 3 ∧
    ¬ backRefForward (delete bugTree 1) = true := by
  refine ⟨by decide, by decide, by decide, by decide, by decide⟩

/-!  Claim C6: the root survives every reachable history. -/

theorem Task.add_child_parent (x : Task) (i : Nat) : (x.add_child i).parent = x.parent := rfl

theorem Task.remove_child_parent (x : Task) (i : Nat) : (x.remove_child i).parent = x.parent := rfl

theorem Task.replace_child_parent (x : Task) (a b : Nat) :
    (x.replace_child a b).parent = x.parent := rfl

theorem ascend_tasks (t : Tree) : (ascend t).tasks = t.tasks := by
  simp only [ascend]
  split
  · rfl
  · split <;> rfl

theorem descend_tasks (t : Tree) (idx : Nat) : (descend t idx).tasks = t.tasks := by
  simp only [descend]
  split <;> rfl

theorem swapRemove_length {l : List Task} {i : Nat} :
    (swapRemove l i).length = l.length - 1 := by
  simp [swapRemove]

theorem mem_of_mem_swapRemove {l : List Task} {i : Nat} {u : Task}
    (h0 : 0 < l.length) (hu : u ∈ swapRemove l i) : u ∈ l := by
  have h1 := List.mem_of_mem_take hu
  rcases List.mem_or_eq_of_mem_set h1 with h | h
  · exact h
  · subst h
    have hlt : l.length - 1 < l.length := by omega
    rw [List.getD_eq_getD_get?, List.get?_eq_get hlt]
    exact List.get_mem l _ hlt

theorem get?_swapRemove_ne {l : List Task} {i j : Nat} (hij : i ≠ j)
    (hj : j < l.length - 1) : (swapRemove l i).get? j = l.get? j := by
  rw [swapRemove, List.get?_take hj, List.get?_set_ne _ _ hij]

theorem taskD_of_get? {t : Tree} {i : Nat} {task : Task}
    (h : t.tasks.get? i = some task) : t.taskD i = task := by
  rw [Tree.taskD_eq_get?, h]
  rfl

theorem lt_of_get? {t : Tree} {i : Nat} {task : Task}
    (h : t.tasks.get? i = some task) : i < t.tasks.length := by
  by_contra hc
  rw [List.get?_eq_none.mpr (by omega)] at h
  cases h

theorem taskD_mem {t : Tree} {i : Nat} (h : i < t.tasks.length) : t.taskD i ∈ t.tasks := by
  rw [Tree.taskD_eq_get?, List.get?_eq_get h]
  exact List.get_mem _ _ h

theorem rootOK_not_child {t : Tree} (h : RootOK t) (i : Nat) :
    (0 : Nat) ∉ (t.taskD i).children := by
  by_cases hi : i < t.tasks.length
  · exact h.2.2 _ (taskD_mem hi)
  · rw [Tree.taskD_eq_get?, List.get?_eq_none.mpr (by omega)]
    intro hmem
    simp [Task.new] at hmem

theorem rootOK_of_tasks_eq {a b : Tree} (h : b.tasks = a.tasks) (hR : RootOK a) : RootOK b := by
  unfold RootOK Tree.taskD at *
  rw [h]
  exact hR

theorem rootOK_replace_task {t : Tree} {i : Nat} {v : Task} (h : RootOK t)
    (hparent : i = 0 → v.parent = none) (hchild : (0 : Nat) ∉ v.children) :
    RootOK (t.replace_task i v) := by
  refine ⟨by rw [Tree.replace_task_length]; exact h.1, ?_, ?_⟩
  · by_cases hi : i = 0
    · subst hi
      rw [Tree.taskD_replace_task_self _ _ h.1]
      exact hparent rfl
    · rw [Tree.taskD_replace_task_ne _ _ hi]
      exact h.2.1
  · intro u hu
    rcases List.mem_or_eq_of_mem_set hu with h' | h'
    · exact h.2.2 u h'
    · rw [h']
      exact hchild

theorem rootOK_new : RootOK Tree.new := by
  refine ⟨by decide, by decide, ?_⟩
  intro u hu
  rw [show Tree.new.tasks = [Task.new] from rfl, List.mem_singleton] at hu
  rw [hu]
  simp [Task.new]

theorem add_rootOK {t : Tree} (h : RootOK t) (p : Option Nat) (nm : String)
    (d : Option Nat) (s : Status) : RootOK (add t ⟨p, nm, d, s, []⟩) := by
  obtain ⟨h1, h2, h3⟩ := h
  refine ⟨by rw [add_length]; omega, ?_, ?_⟩
  · by_cases hp : t.ptr = 0
    · rw [← hp, taskD_add_cursor t _ (by omega), Task.add_child_parent,
        Tree.currentTask, hp]
      exact h2
    · rw [taskD_add_old t _ (fun he => hp (he.symm)) h1]
      exact h2
  · intro u hu
    rw [add_tasks] at hu
    rcases List.mem_or_eq_of_mem_set hu with h' | h'
    · rcases List.mem_append.mp h' with h'' | h''
      · exact h3 u h''
      · rw [List.mem_singleton.mp h'']
        intro hmem
        simp [Task.set_parent] at hmem
    · rw [h']
      intro hmem
      rcases List.mem_append.mp hmem with h'' | h''
      · exact rootOK_not_child ⟨h1, h2, h3⟩ t.ptr h''
      · rw [List.mem_singleton.mp h''] at h1
        omega

theorem completeLoop_rootOK :
    ∀ fuel tree stack p r, RootOK tree → completeLoop fuel tree stack p = some r →
      RootOK r := by
  intro fuel
  induction fuel with
  | zero =>
    intro tree stack p r _ h
    cases h
  | succ n ih =>
    intro tree stack p r hR h
    rw [completeLoop] at h
    split at h
    · rename_i hp
      split at h
      · cases h
      · rename_i task hget
        refine ih _ _ _ _ ?_ h
        apply rootOK_replace_task hR
        · intro h0
          have htask : tree.taskD 0 = task := by
            rw [← h0]
            exact taskD_of_get? hget
          rw [Task.complete_parent, ← htask]
          exact hR.2.1
        · rw [Task.complete_children]
          exact hR.2.2 task (List.get?_mem hget)
    · cases h
      exact hR

theorem complete_rootOK {t : Tree} (idx : Nat) (h : RootOK t) : RootOK (complete t idx) := by
  rw [complete]
  split
  · exact h
  · cases hres : completeLoop (t.tasks.length + 1) t [idx] 0 with
    | none => exact h
    | some r => exact completeLoop_rootOK _ _ _ _ _ h hres

theorem deleteLoop_rootOK :
    ∀ fuel tree stack r, RootOK tree → (∀ e ∈ stack, e ≠ 0) →
      deleteLoop fuel tree stack = some r → RootOK r := by
  intro fuel
  induction fuel with
  | zero =>
    intro tree stack r _ _ h
    cases h
  | succ n ih =>
    intro tree stack r hR hstack h
    cases stack with
    | nil =>
      rw [deleteLoop] at h
      cases h
      exact hR
    | cons c rest =>
      have hc0 : c ≠ 0 := hstack c (List.mem_cons_self c rest)
      have hrest : ∀ e ∈ rest, e ≠ 0 := fun e he => hstack e (List.mem_cons_of_mem c he)
      rw [deleteLoop] at h
      split at h
      · exact ih _ _ _ hR hrest h
      · rename_i child_task hget
        have hclt : c < tree.tasks.length := lt_of_get? hget
        have hcmem : child_task ∈ tree.tasks := List.get?_mem hget
        split at h
        · -- children nonempty: push them
          refine ih _ _ _ hR ?_ h
          intro e he
          rcases List.mem_append.mp he with h' | h'
          · intro he0
            rw [he0] at h'
            exact hR.2.2 child_task hcmem (List.mem_reverse.mp h')
          · exact hstack e h'
        · split at h
          · cases h
          · rename_i parent_index hpar
            split at h
            · cases h
            · rename_i parent_task hptask
              -- the leaf is detached and swap-removed
              have hR1 : RootOK (tree.replace_task parent_index
                  (parent_task.remove_child c)) := by
                apply rootOK_replace_task hR
                · intro h0
                  rw [Task.remove_child_parent, ← taskD_of_get? hptask, h0]
                  exact hR.2.1
                · intro hmem
                  exact hR.2.2 parent_task (List.get?_mem hptask)
                    (List.mem_of_mem_filter hmem)
              have hlen1 : (tree.replace_task parent_index
                  (parent_task.remove_child c)).tasks.length = tree.tasks.length :=
                Tree.replace_task_length _ _ _
              have hlen2 : 2 ≤ tree.tasks.length := by omega
              have hR2 : RootOK (detachTree tree parent_index c parent_task) := by
                refine ⟨?_, ?_, ?_⟩
                · show 0 < (swapRemove (tree.replace_task parent_index
                    (parent_task.remove_child c)).tasks c).length
                  rw [swapRemove_length, hlen1]
                  omega
                · rw [Tree.taskD_eq_get?]
                  have hsw : (detachTree tree parent_index c parent_task).tasks
                      = swapRemove (tree.replace_task parent_index
                          (parent_task.remove_child c)).tasks c := rfl
                  rw [hsw, get?_swapRemove_ne hc0 (by rw [hlen1]; omega)]
                  have h01 := hR1.2.1
                  rw [Tree.taskD_eq_get?] at h01
                  exact h01
                · intro u hu
                  exact hR1.2.2 u (mem_of_mem_swapRemove (by omega) hu)
              split at h
              · exact ih _ _ _ hR2 hrest h
              · rename_i moved_task hmoved
                split at h
                · cases h
                · rename_i parent2 hpar2
                  split at h
                  · cases h
                  · rename_i parent_task2 hptask2
                    refine ih _ _ _ ?_ hrest h
                    apply rootOK_replace_task hR2
                    · intro h0
                      rw [Task.replace_child_parent, ← taskD_of_get? hptask2, h0]
                      exact hR2.2.1
                    · intro hmem
                      rcases List.mem_map.mp hmem with ⟨a, ha, hfa⟩
                      by_cases hae : a = (detachTree tree parent_index c parent_task).tasks.length
                      · rw [if_pos hae] at hfa
                        exact hc0 hfa
                      · rw [if_neg hae] at hfa
                        rw [hfa] at ha
                        exact hR2.2.2 parent_task2 (List.get?_mem hptask2) ha

theorem delete_rootOK {t : Tree} (idx : Nat) (h : RootOK t) : RootOK (delete t idx) := by
  rw [delete]
  split
  · exact h
  · rename_i hidx
    cases hres : deleteLoop (deleteFuel t) t [idx] with
    | none => exact h
    | some r =>
      refine deleteLoop_rootOK _ _ _ _ h ?_ hres
      intro e he
      rw [List.mem_singleton.mp he]
      exact hidx

/-- C6: every tree reachable from Tree::new by the public operations has a
non-empty node sequence whose index-0 node carries no parent link, and the
guarded no-ops complete(tree, 0) and delete(tree, 0) leave the tree
unchanged, so no operation ever removes the root. -/
theorem root_never_removed (t : Tree) (h : Reachable t) :
    0 < t.tasks.length ∧ (t.taskD 0).parent = none ∧
    complete t 0 = t ∧ delete t 0 = t := by
  have hR : RootOK t := by
    induction h with
    | new => exact rootOK_new
    | add p nm d s _ ih => exact add_rootOK ih p nm d s
    | ascend _ ih => exact rootOK_of_tasks_eq (ascend_tasks _) ih
    | descend idx _ ih => exact rootOK_of_tasks_eq (descend_tasks _ idx) ih
    | complete idx _ ih => exact complete_rootOK idx ih
    | delete idx _ ih => exact delete_rootOK idx ih
  exact ⟨hR.1, hR.2.1, by simp [complete], by simp [delete]⟩

/-- Witness for root_never_removed at a concrete reachable tree. -/
theorem root_never_removed_witness :
    0 < (add Tree.new Task.new).tasks.length ∧
    ((add Tree.new Task.new).taskD 0).parent = none ∧
    complete (add Tree.new Task.new) 0 = add Tree.new Task.new ∧
    delete (add Tree.new Task.new) 0 = add Tree.new Task.new :=
  root_never_removed (add Tree.new Task.new)
    (Reachable.add none "Root" none .Pending Reachable.new)

/-!  Claim C9: statuses only ever move from Pending to Complete. -/

theorem coreMatch_refl (x : Task) : coreMatch x x := ⟨rfl, rfl, rfl, rfl⟩

theorem coreMatch_remove_child {v x : Task} (h : coreMatch v x) (i : Nat) :
    coreMatch v (x.remove_child i) := h

theorem coreMatch_replace_child {v x : Task} (h : coreMatch v x) (a b : Nat) :
    coreMatch v (x.replace_child a b) := h

theorem core_closure_replace {t0 u : Tree} {i : Nat} {y : Task}
    (hall : ∀ x ∈ u.tasks, ∃ v ∈ t0.tasks, coreMatch v x)
    (hy : ∃ v ∈ t0.tasks, coreMatch v y) :
    ∀ x ∈ (u.replace_task i y).tasks, ∃ v ∈ t0.tasks, coreMatch v x := by
  intro x hx
  rcases List.mem_or_eq_of_mem_set hx with h | h
  · exact hall x h
  · rw [h]
    exact hy

theorem completeLoop_status (t0 : Tree) :
    ∀ fuel tree stack p r,
      (∀ j, tree.taskD j = t0.taskD j ∨ tree.taskD j = (t0.taskD j).complete) →
      completeLoop fuel tree stack p = some r →
      ∀ j, r.taskD j = t0.taskD j ∨ r.taskD j = (t0.taskD j).complete := by
  intro fuel
  induction fuel with
  | zero =>
    intro tree stack p r _ h
    cases h
  | succ n ih =>
    intro tree stack p r hinv h
    rw [completeLoop] at h
    split at h
    · rename_i hp
      split at h
      · cases h
      · rename_i task hget
        refine ih _ _ _ _ ?_ h
        intro j
        by_cases hj : j = stack.get ⟨p, hp⟩
        · rw [hj, Tree.taskD_replace_task_self _ _ (lt_of_get? hget)]
          have htask : tree.taskD (stack.get ⟨p, hp⟩) = task := taskD_of_get? hget
          rcases hinv (stack.get ⟨p, hp⟩) with h' | h'
          · right
            rw [← htask, h']
          · right
            rw [← htask, h', Task.complete_complete]
        · rw [Tree.taskD_replace_task_ne _ _ (fun he => hj he.symm)]
          exact hinv j
    · cases h
      exact hinv

theorem complete_status (t : Tree) (idx : Nat) :
    ∀ j, (complete t idx).taskD j = t.taskD j ∨
      (complete t idx).taskD j = (t.taskD j).complete := by
  intro j
  rw [complete]
  split
  · left; rfl
  · cases hres : completeLoop (t.tasks.length + 1) t [idx] 0 with
    | none => left; rfl
    | some r => exact completeLoop_status t _ _ _ _ _ (fun _ => Or.inl rfl) hres j

theorem deleteLoop_core (t0 : Tree) :
    ∀ fuel tree stack r,
      (∀ x ∈ tree.tasks, ∃ v ∈ t0.tasks, coreMatch v x) →
      deleteLoop fuel tree stack = some r →
      ∀ x ∈ r.tasks, ∃ v ∈ t0.tasks, coreMatch v x := by
  intro fuel
  induction fuel with
  | zero =>
    intro tree stack r _ h
    cases h
  | succ n ih =>
    intro tree stack r hall h
    cases stack with
    | nil =>
      rw [deleteLoop] at h
      cases h
      exact hall
    | cons c rest =>
      rw [deleteLoop] at h
      split at h
      · exact ih _ _ _ hall h
      · rename_i child_task hget
        split at h
        · exact ih _ _ _ hall h
        · split at h
          · cases h
          · rename_i parent_index hpar
            split at h
            · cases h
            · rename_i parent_task hptask
              have hclt : c < tree.tasks.length := lt_of_get? hget
              have hall1 : ∀ x ∈ (tree.replace_task parent_index
                  (parent_task.remove_child c)).tasks, ∃ v ∈ t0.tasks, coreMatch v x := by
                apply core_closure_replace hall
                obtain ⟨v, hv, hvm⟩ := hall parent_task (List.get?_mem hptask)
                exact ⟨v, hv, coreMatch_remove_child hvm c⟩
              have hall2 : ∀ x ∈ (detachTree tree parent_index c parent_task).tasks,
                  ∃ v ∈ t0.tasks, coreMatch v x := by
                intro x hx
                refine hall1 x (mem_of_mem_swapRemove ?_ hx)
                rw [Tree.replace_task_length]
                omega
              split at h
              · exact ih _ _ _ hall2 h
              · rename_i moved_task hmoved
                split at h
                · cases h
                · rename_i parent2 hpar2
                  split at h
                  · cases h
                  · rename_i parent_task2 hptask2
                    refine ih _ _ _ ?_ h
                    apply core_closure_replace hall2
                    obtain ⟨v, hv, hvm⟩ := hall2 parent_task2 (List.get?_mem hptask2)
                    exact ⟨v, hv, coreMatch_replace_child hvm _ _⟩

/-- C9: statuses are monotonic across every public operation: ascend and
descend leave the node sequence untouched; add keeps the status of every
pre-existing slot; complete either leaves a slot alone or stamps it
Complete (so a Complete node stays Complete); and every node surviving a
delete agrees with a pre-call node on parent, name, due and status (delete
edits only children lists), so no operation ever turns Complete back into
Pending. -/
theorem status_monotonic :
    (∀ t : Tree, (ascend t).tasks = t.tasks) ∧
    (∀ (t : Tree) (i : Nat), (descend t i).tasks = t.tasks) ∧
    (∀ (t : Tree) (task : Task) (j : Nat), j < t.tasks.length →
      ((add t task).taskD j).status = (t.taskD j).status) ∧
    (∀ (t : Tree) (i j : Nat),
      (complete t i).taskD j = t.taskD j ∨ (complete t i).taskD j = (t.taskD j).complete) ∧
    (∀ (t : Tree) (i j : Nat), (t.taskD j).is_complete = true →
      ((complete t i).taskD j).is_complete = true) ∧
    (∀ (t : Tree) (i : Nat) (x : Task), x ∈ (delete t i).tasks →
      ∃ v ∈ t.tasks, coreMatch v x) := by
  refine ⟨ascend_tasks, descend_tasks, ?_, complete_status, ?_, ?_⟩
  · intro t task j hj
    by_cases hp : j = t.ptr
    · subst hp
      rw [taskD_add_cursor t task hj]
      rfl
    · rw [taskD_add_old t task hp hj]
  · intro t i j hc
    rcases complete_status t i j with h | h
    · rw [h]
      exact hc
    · rw [h]
      rfl
  · intro t i x hx
    rw [delete] at hx
    split at hx
    · exact ⟨x, hx, coreMatch_refl x⟩
    · cases hres : deleteLoop (deleteFuel t) t [i] with
      | none =>
        rw [hres] at hx
        exact ⟨x, hx, coreMatch_refl x⟩
      | some r =>
        rw [hres] at hx
        exact deleteLoop_core t _ _ _ _ (fun y hy => ⟨y, hy, coreMatch_refl y⟩) hres x hx

/-!  Claim C3: the complete cascade. -/

theorem length_le_of_nodup_lt {l : List Nat} {n : Nat} (hnd : l.Nodup)
    (hlt : ∀ e ∈ l, e < n) : l.length ≤ n := by
  have h1 : l.toFinset.card = l.length := List.toFinset_card_of_nodup hnd
  have h2 : l.toFinset ⊆ Finset.range n := by
    intro a ha
    rw [List.mem_toFinset] at ha
    rw [Finset.mem_range]
    exact hlt a ha
  have h3 := Finset.card_le_card h2
  rw [h1, Finset.card_range] at h3
  exact h3

theorem not_mem_take_of_get {l : List Nat} (hnd : l.Nodup) {p : Nat} (hp : p < l.length) :
    l.get ⟨p, hp⟩ ∉ l.take p := by
  intro hmem
  have hnd' : (l.take p ++ l.drop p).Nodup := by
    rw [List.take_append_drop]
    exact hnd
  have hdisj := List.disjoint_of_nodup_append hnd'
  have hdrop : l.get ⟨p, hp⟩ ∈ l.drop p := by
    rw [List.drop_eq_get_cons hp]
    exact List.mem_cons_self _ _
  exact hdisj hmem hdrop

theorem completeLoop_run (t : Tree) (idx : Nat) (hroot : (t.taskD 0).parent = none)
    (hf : backRefForward t = true) (hb : backRefConverse t = true)
    (hr : rootedCheck t = true) (hidx : idx < t.tasks.length) :
    ∀ fuel tree stack p, LoopInv t idx tree stack p →
      t.tasks.length + 1 - p ≤ fuel →
      ∃ r stackF, completeLoop fuel tree stack p = some r ∧
        (∀ e ∈ stackF, e < t.tasks.length ∧ Desc t idx e) ∧
        (∀ e ∈ stackF, (t.taskD e).children ⊆ stackF) ∧
        idx ∈ stackF ∧
        (∀ j, j ∈ stackF → r.taskD j = (t.taskD j).complete) ∧
        (∀ j, j ∉ stackF → r.taskD j = t.taskD j) ∧
        r.tasks.length = t.tasks.length := by
  intro fuel
  induction fuel with
  | zero =>
    intro tree stack p hΦ hfuel
    obtain ⟨hlen, hple, hnd, hent, hcl, hprov, hhead, hdone, hrest⟩ := hΦ
    have hslen : stack.length ≤ t.tasks.length :=
      length_le_of_nodup_lt hnd (fun e he => (hent e he).1)
    omega
  | succ n ih =>
    intro tree stack p hΦ hfuel
    obtain ⟨hlen, hple, hnd, hent, hcl, hprov, hhead, hdone, hrest⟩ := hΦ
    by_cases hp : p < stack.length
    · -- run one more iteration of the loop
      have hspmem : stack.get ⟨p, hp⟩ ∈ stack := List.get_mem _ _ _
      have hsplt : stack.get ⟨p, hp⟩ < t.tasks.length := (hent _ hspmem).1
      have hspdesc : Desc t idx (stack.get ⟨p, hp⟩) := (hent _ hspmem).2
      have hsp_notdone : stack.get ⟨p, hp⟩ ∉ stack.take p := not_mem_take_of_get hnd hp
      have hget : tree.tasks.get? (stack.get ⟨p, hp⟩)
          = some (tree.taskD (stack.get ⟨p, hp⟩)) :=
        Tree.get?_eq_some_taskD (by rw [hlen]; exact hsplt)
      have htreesp : tree.taskD (stack.get ⟨p, hp⟩) = t.taskD (stack.get ⟨p, hp⟩) :=
        hrest _ hsp_notdone
      have hcs : (tree.taskD (stack.get ⟨p, hp⟩)).complete.children
          = (t.taskD (stack.get ⟨p, hp⟩)).children := by
        rw [Task.complete_children, htreesp]
      have hunfold : completeLoop (n + 1) tree stack p
          = completeLoop n
              (tree.replace_task (stack.get ⟨p, hp⟩)
                (tree.taskD (stack.get ⟨p, hp⟩)).complete)
              (stack ++ (tree.taskD (stack.get ⟨p, hp⟩)).complete.children) (p + 1) := by
        rw [completeLoop, dif_pos hp, hget]
      rw [hunfold, hcs]
      have hcsnd : (t.taskD (stack.get ⟨p, hp⟩)).children.Nodup :=
        children_nodup hroot hf hb hsplt
      have hdisj : stack.Disjoint (t.taskD (stack.get ⟨p, hp⟩)).children := by
        rw [List.disjoint_left]
        intro a ha hacs
        obtain ⟨⟨k, hk⟩, hgk⟩ := List.get_of_mem ha
        by_cases hk0 : k = 0
        · -- a would be idx, a child of one of its own descendants
          have haidx : a = idx := by
            have h0 := hhead
            rw [List.get?_eq_get (by omega : 0 < stack.length)] at h0
            have : stack.get ⟨0, by omega⟩ = idx := Option.some.inj h0
            rw [← hgk]
            rw [show (⟨k, hk⟩ : Fin stack.length) = ⟨0, by omega⟩ from by
              apply Fin.ext
              exact hk0]
            exact this
          rw [haidx] at hacs
          have hd1 := depth_child hroot hb hr hsplt hacs
          have hd2 := (Desc_valid_depth hroot hb hr hidx hspdesc).2
          omega
        · -- a was pushed as a child of an earlier-processed entry
          obtain ⟨j, hj, hjp, hmem⟩ := hprov k hk (by omega)
          rw [hgk] at hmem
          have hjlt : stack.get ⟨j, hj⟩ < t.tasks.length :=
            (hent _ (List.get_mem _ _ _)).1
          have heq : stack.get ⟨j, hj⟩ = stack.get ⟨p, hp⟩ :=
            parent_unique hb hjlt hsplt hmem hacs
          have hfin := (List.Nodup.get_inj_iff hnd).mp heq
          have hjp' : j = p := congrArg Fin.val hfin
          omega
      have hΦ' : LoopInv t idx
          (tree.replace_task (stack.get ⟨p, hp⟩)
            (tree.taskD (stack.get ⟨p, hp⟩)).complete)
          (stack ++ (t.taskD (stack.get ⟨p, hp⟩)).children) (p + 1) := by
        have htake : (stack ++ (t.taskD (stack.get ⟨p, hp⟩)).children).take (p + 1)
            = stack.take p ++ [stack.get ⟨p, hp⟩] := by
          rw [List.take_append_eq_append_take,
            Nat.sub_eq_zero_of_le (by omega : p + 1 ≤ stack.length),
            List.take_zero, List.append_nil, List.take_succ]
          have hg : stack[p]? = some (stack.get ⟨p, hp⟩) := by
            rw [← List.get?_eq_getElem?]
            exact List.get?_eq_get hp
          rw [hg]
          rfl
        refine ⟨?_, ?_, ?_, ?_, ?_, ?_, ?_, ?_, ?_⟩
        · rw [Tree.replace_task_length]
          exact hlen
        · rw [List.length_append]
          omega
        · exact List.Nodup.append hnd hcsnd hdisj
        · intro e he
          rcases List.mem_append.mp he with h' | h'
          · exact hent e h'
          · exact ⟨(backRefConverse_spec hb hsplt h').1, Desc.child hspdesc h'⟩
        · intro k hk hklt
          have hks : k < stack.length := by omega
          have hgk : (stack ++ (t.taskD (stack.get ⟨p, hp⟩)).children).get ⟨k, hk⟩
              = stack.get ⟨k, hks⟩ := List.get_append k hks
          rw [hgk]
          by_cases hkp : k < p
          · intro x hx
            exact List.mem_append_left _ (hcl k hks hkp hx)
          · have hkeq : k = p := by omega
            subst hkeq
            intro x hx
            exact List.mem_append_right _ hx
        · intro k hk hk0
          by_cases hks : k < stack.length
          · obtain ⟨j, hj, hjp, hmem⟩ := hprov k hks hk0
            refine ⟨j, by rw [List.length_append]; omega, by omega, ?_⟩
            rw [List.get_append k hks, List.get_append j hj]
            exact hmem
          · refine ⟨p, by rw [List.length_append]; omega, by omega, ?_⟩
            rw [List.get_append p hp]
            have hgk : (stack ++ (t.taskD (stack.get ⟨p, hp⟩)).children).get ⟨k, hk⟩
                ∈ (t.taskD (stack.get ⟨p, hp⟩)).children := by
              rw [List.get_append_right' (by omega) hk]
              exact List.get_mem _ _ _
            exact hgk
        · rw [List.get?_append (by omega : 0 < stack.length)]
          exact hhead
        · intro j hj
          rw [htake] at hj
          rcases List.mem_append.mp hj with h' | h'
          · have hjne : j ≠ stack.get ⟨p, hp⟩ := by
              intro he
              rw [he] at h'
              exact hsp_notdone h'
            rw [Tree.taskD_replace_task_ne _ _ (fun he => hjne he.symm)]
            exact hdone j h'
          · rw [List.mem_singleton.mp h']
            rw [Tree.taskD_replace_task_self _ _ (by rw [hlen]; exact hsplt)]
            rw [htreesp]
        · intro j hj
          rw [htake] at hj
          have hj1 : j ∉ stack.take p := fun h' => hj (List.mem_append_left _ h')
          have hj2 : j ≠ stack.get ⟨p, hp⟩ := fun h' =>
            hj (List.mem_append_right _ (List.mem_singleton.mpr h'))
          rw [Tree.taskD_replace_task_ne _ _ (fun he => hj2 he.symm)]
          exact hrest j hj1
      exact ih _ _ _ hΦ' (by omega)
    · -- the loop exits
      refine ⟨tree, stack, ?_, hent, ?_, ?_, ?_, ?_, hlen⟩
      · rw [completeLoop, dif_neg hp]
      · intro e he
        obtain ⟨⟨k, hk⟩, hgk⟩ := List.get_of_mem he
        have hkp : k < p := by omega
        rw [← hgk]
        exact hcl k hk hkp
      · exact List.get?_mem hhead
      · intro j hj
        apply hdone
        rw [List.take_all_of_le (by omega)]
        exact hj
      · intro j hj
        apply hrest
        rw [List.take_all_of_le (by omega)]
        exact hj

/-- C3: complete(tree, 0) returns the tree unchanged; for every valid
non-root index the breadth-first cascade terminates — the work loop
returns a some result within fuel length+1 — marking idx and every
transitive descendant Complete regardless of prior status, while every
other node keeps exactly its prior task (hence its prior status). -/
theorem complete_cascade (t : Tree) (idx : Nat) (hInv : Inv t)
    (hidx : idx < t.tasks.length) (hidx0 : idx ≠ 0) :
    complete t 0 = t ∧
    ∃ r, completeLoop (t.tasks.length + 1) t [idx] 0 = some r ∧
      complete t idx = r ∧
      r.tasks.length = t.tasks.length ∧
      (∀ j, Desc t idx j → r.taskD j = (t.taskD j).complete) ∧
      (∀ j, ¬ Desc t idx j → r.taskD j = t.taskD j) := by
  obtain ⟨hne, hroot, hptr, ⟨hf, hb⟩, hpp, hr⟩ := hInv
  have hΦ : LoopInv t idx t [idx] 0 := by
    refine ⟨rfl, Nat.zero_le _, List.nodup_singleton idx, ?_, ?_, ?_, rfl, ?_, ?_⟩
    · intro e he
      rw [List.mem_singleton.mp he]
      exact ⟨hidx, Desc.refl⟩
    · intro k hk hk0
      exact absurd hk0 (Nat.not_lt_zero k)
    · intro k hk hk0
      have hk1 : k < 1 := by simpa using hk
      omega
    · intro j hj
      simp at hj
    · intro j hj
      rfl
  obtain ⟨r, stackF, hres, hent, hcl, hidxm, hdone, hrest, hlen⟩ :=
    completeLoop_run t idx hroot hf hb hr hidx (t.tasks.length + 1) t [idx] 0 hΦ (by omega)
  have hdesc_mem : ∀ j, Desc t idx j → j ∈ stackF := by
    intro j hd
    induction hd with
    | refl => exact hidxm
    | child hdp hc ihm => exact hcl _ ihm hc
  refine ⟨by simp [complete], r, hres, ?_, hlen, ?_, ?_⟩
  · rw [complete, if_neg hidx0, hres]
    rfl
  · intro j hd
    exact hdone j (hdesc_mem j hd)
  · intro j hnd
    apply hrest
    intro hmem
    exact hnd (hent j hmem).2

/-- Witness for complete_cascade at a concrete tree and index. -/
theorem complete_cascade_witness :
    Inv sampleTree ∧ 1 < sampleTree.tasks.length ∧ (1 : Nat) ≠ 0 ∧
    (complete sampleTree 0 = sampleTree ∧
      ∃ r, completeLoop (sampleTree.tasks.length + 1) sampleTree [1] 0 = some r ∧
        complete sampleTree 1 = r ∧
        r.tasks.length = sampleTree.tasks.length ∧
        (∀ j, Desc sampleTree 1 j → r.taskD j = (sampleTree.taskD j).complete) ∧
        (∀ j, ¬ Desc sampleTree 1 j → r.taskD j = sampleTree.taskD j)) :=
  ⟨by decide, by decide, by decide,
    complete_cascade sampleTree 1 (by decide) (by decide) (by decide)⟩

/-- Witness for status_monotonic at concrete inputs. -/
theorem status_monotonic_witness :
    0 < sampleTree.tasks.length ∧
    ((add sampleTree Task.new).taskD 0).status = (sampleTree.taskD 0).status ∧
    (sampleTree.taskD 2).is_complete = true ∧
    ((complete sampleTree 1).taskD 2).is_complete = true ∧
    sampleTree.taskD 0 ∈ (delete sampleTree 3).tasks ∧
    (∃ v ∈ sampleTree.tasks, coreMatch v (sampleTree.taskD 0)) :=
  ⟨by decide, status_monotonic.2.2.1 sampleTree Task.new 0 (by decide),
    by decide, status_monotonic.2.2.2.2.1 sampleTree 1 2 (by decide),
    by decide,
    status_monotonic.2.2.2.2.2 sampleTree 3 (sampleTree.taskD 0) (by decide)⟩

end Toru
